import Mathlib

/-!
Shallow embedding of the document marker/index engine of mcp-gdocs
(src/document-parser.ts and the request assembly in src/google-docs.ts).
Strings are modelled as lists of characters; optional numeric fields of the
remote document schema are modelled as `Option Nat` together with the
JavaScript falsy-default idiom.
-/

namespace McpGdocs

/-- Character list of a string literal. -/
def str (s : String) : List Char := s.data

/-- Model of the JavaScript expression x || d for optional numeric fields:
undefined and 0 are falsy and replaced by the default. -/
def jsOr (x : Option Nat) (d : Nat) : Nat :=
  match x with
  | none => d
  | some n => if n = 0 then d else n

/-- Lower-case a string, character by character. -/
def lowerStr (s : List Char) : List Char := s.map Char.toLower

/-- Model of String.prototype.trim. -/
def trimStr (s : List Char) : List Char :=
  ((s.dropWhile Char.isWhitespace).reverse.dropWhile Char.isWhitespace).reverse

/-- Model of text.replace of one trailing newline by nothing. -/
def stripNl (s : List Char) : List Char :=
  if s.getLast? = some '\n' then s.dropLast else s

/-- Model of Array.prototype.join with the newline separator. -/
def joinNl : List (List Char) → List Char
  | [] => []
  | [l] => l
  | l :: l2 :: ls => l ++ '\n' :: joinNl (l2 :: ls)

/-- Model of String.prototype.split on the newline separator. -/
def splitOnNl : List Char → List (List Char)
  | [] => [[]]
  | c :: rest =>
    if c = '\n' then [] :: splitOnNl rest
    else
      match splitOnNl rest with
      | [] => [[c]]
      | l :: ls => (c :: l) :: ls

/-- Model of String.prototype.startsWith: the first argument occurs at the
start of the second. -/
def isPfx : List Char → List Char → Bool
  | [], _ => true
  | _ :: _, [] => false
  | a :: as, b :: bs => a == b && isPfx as bs

/-- First occurrence of pat in s, as String.prototype.indexOf from offset 0. -/
def firstOccur : List Char → List Char → Option Nat
  | [], pat => if isPfx pat [] then some 0 else none
  | c :: t, pat => if isPfx pat (c :: t) then some 0 else (firstOccur t pat).map (· + 1)

/-- Model of String.prototype.indexOf with a starting position, clamped to the
string length as in JavaScript. -/
def jsIndexOf (s pat : List Char) (start : Nat) : Option Nat :=
  (firstOccur (s.drop (min start s.length)) pat).map (· + min start s.length)

/-- Model of String.prototype.includes. -/
def includesStr (s pat : List Char) : Bool := (firstOccur s pat).isSome

/-! The document data model (the fields of the Google Docs schema the parser
reads, with optional fields kept optional). -/

inductive NamedStyleType where
  | HEADING_1
  | HEADING_2
  | HEADING_3
  | NORMAL_TEXT
  | OTHER_STYLE
  deriving DecidableEq, Repr

structure TextRun where
  content : Option (List Char)
  linkUrl : Option (List Char)
  deriving DecidableEq, Repr

structure ParagraphElem where
  startIndex : Option Nat
  textRun : Option TextRun
  deriving DecidableEq, Repr

structure Paragraph where
  namedStyleType : Option NamedStyleType
  bullet : Bool
  elements : List ParagraphElem
  deriving DecidableEq, Repr

inductive BlockContent where
  | paragraph (p : Paragraph)
  | table
  | other
  deriving DecidableEq, Repr

structure StructuralElement where
  startIndex : Option Nat
  endIndex : Option Nat
  block : BlockContent
  deriving DecidableEq, Repr

structure Document where
  content : List StructuralElement
  deriving DecidableEq, Repr

/-! Reader: documentToText. -/

/-- Heading marker chosen from the named paragraph style in documentToText. -/
def stylePfx (s : Option NamedStyleType) : List Char :=
  match s with
  | some NamedStyleType.HEADING_1 => str "[H1] "
  | some NamedStyleType.HEADING_2 => str "[H2] "
  | some NamedStyleType.HEADING_3 => str "[H3] "
  | _ => []

/-- Render one inline run, turning an active link into bracket markup. -/
def renderRun (tr : TextRun) : List Char :=
  let text := tr.content.getD []
  match tr.linkUrl with
  | some url =>
    if url ≠ [] ∧ trimStr text ≠ [] then
      let t := '[' :: (stripNl text ++ ']' :: '(' :: (url ++ [')']))
      if text.getLast? = some '\n' then t ++ ['\n'] else t
    else text
  | none => text

/-- Concatenated rendered text of the runs of a paragraph. -/
def paragraphRendered (p : Paragraph) : List Char :=
  (p.elements.filterMap (fun e => e.textRun.map renderRun)).flatten

/-- Concatenated raw text of the runs of a paragraph. -/
def paragraphText (p : Paragraph) : List Char :=
  (p.elements.filterMap (fun e => e.textRun.map (fun tr => tr.content.getD []))).flatten

/-- Line emitted for one structural element by documentToText, if any. -/
def renderElement (e : StructuralElement) : Option (List Char) :=
  match e.block with
  | BlockContent.paragraph p =>
    let pfx := if p.bullet then str "• " else stylePfx p.namedStyleType
    let t := paragraphRendered p
    if trimStr t ≠ [] then some (pfx ++ stripNl t)
    else if t = ['\n'] then some []
    else none
  | BlockContent.table => some (str "[TABLE]")
  | BlockContent.other => none

/-- documentToText from document-parser.ts. -/
def documentToText (doc : Document) : List Char :=
  joinNl (doc.content.filterMap renderElement)

/-! Heading and section locator. -/

structure HeadingInfo where
  text : List Char
  level : Nat
  startIndex : Nat
  endIndex : Nat
  deriving DecidableEq, Repr

def headingLevelOf (s : Option NamedStyleType) : Nat :=
  match s with
  | some NamedStyleType.HEADING_1 => 1
  | some NamedStyleType.HEADING_2 => 2
  | some NamedStyleType.HEADING_3 => 3
  | _ => 0

/-- findHeadings from document-parser.ts. -/
def findHeadings (doc : Document) : List HeadingInfo :=
  doc.content.filterMap fun e =>
    match e.block with
    | BlockContent.paragraph p =>
      if 0 < headingLevelOf p.namedStyleType then
        some { text := trimStr (stripNl (paragraphText p))
             , level := headingLevelOf p.namedStyleType
             , startIndex := jsOr e.startIndex 0
             , endIndex := jsOr e.endIndex 0 }
      else none
    | _ => none

/-- findHeadingByText from document-parser.ts: exact match first, then the
first substring containment, both case-folded against the trimmed query. -/
def findHeadingByText (doc : Document) (searchText : List Char) : Option HeadingInfo :=
  let headings := findHeadings doc
  let searchLower := trimStr (lowerStr searchText)
  match headings.find? (fun h => lowerStr h.text == searchLower) with
  | some h => some h
  | none => headings.find? (fun h => includesStr (lowerStr h.text) searchLower)

/-- getDocumentEndIndex from document-parser.ts. -/
def getDocumentEndIndex (doc : Document) : Nat :=
  match doc.content.getLast? with
  | none => 1
  | some e => jsOr e.endIndex 1 - 1

/-- Model of Array.prototype.findIndex returning an optional index. -/
def jsFindIndex (p : α → Bool) : List α → Option Nat
  | [] => none
  | x :: xs => if p x then some 0 else (jsFindIndex p xs).map (· + 1)

/-- Core of findSectionEnd over an already computed heading list and document
end position. -/
def sectionEndCore (headings : List HeadingInfo) (docEnd : Nat) (heading : HeadingInfo) : Nat :=
  match jsFindIndex (fun h => h.startIndex == heading.startIndex) headings with
  | none => docEnd
  | some j =>
    match (headings.drop (j + 1)).find? (fun h => decide (h.level ≤ heading.level)) with
    | some h => h.startIndex
    | none => docEnd

/-- findSectionEnd from document-parser.ts. -/
def findSectionEnd (doc : Document) (heading : HeadingInfo) : Nat :=
  sectionEndCore (findHeadings doc) (getDocumentEndIndex doc) heading

/-! Text matcher: findTextInDocument. -/

structure TextMatch where
  text : List Char
  startIndex : Nat
  endIndex : Nat
  deriving DecidableEq, Repr

/-- Fueled model of the inner indexOf scan loop of findTextInDocument; none
models a loop that has not finished within the given fuel. -/
def scanAux (s pat : List Char) : Nat → Nat → Option (List Nat)
  | start, 0 =>
    match jsIndexOf s pat start with
    | none => some []
    | some _ => none
  | start, fuel + 1 =>
    match jsIndexOf s pat start with
    | none => some []
    | some p => (scanAux s pat (p + 1) fuel).map (fun ps => p :: ps)

/-- Collect per item lists in order, failing as soon as one item fails. -/
def optionJoinMap (f : α → Option (List β)) : List α → Option (List β)
  | [] => some []
  | x :: xs =>
    match f x with
    | none => none
    | some ys =>
      match optionJoinMap f xs with
      | none => none
      | some rest => some (ys ++ rest)

/-- Matches of the needle inside one inline run of a paragraph. -/
def runMatches (searchText searchLower : List Char) (caseSensitive : Bool)
    (elem : ParagraphElem) : Option (List TextMatch) :=
  match elem.textRun with
  | none => some []
  | some tr =>
    let text := tr.content.getD []
    if text = [] then some []
    else
      let textToSearch := if caseSensitive then text else lowerStr text
      let elemStart := jsOr elem.startIndex 0
      match scanAux textToSearch searchLower 0 (textToSearch.length + 1) with
      | none => none
      | some ps => some (ps.map fun p =>
          { text := (text.drop p).take searchText.length
          , startIndex := elemStart + p
          , endIndex := elemStart + p + searchText.length })

/-- findTextInDocument from document-parser.ts, fueled: a none result models
the divergence of the inner scan loop. -/
def findTextInDocument (doc : Document) (searchText : List Char)
    (caseSensitive : Bool := false) : Option (List TextMatch) :=
  let searchLower := if caseSensitive then searchText else lowerStr searchText
  optionJoinMap (fun e =>
    match e.block with
    | BlockContent.paragraph p =>
        optionJoinMap (runMatches searchText searchLower caseSensitive) p.elements
    | _ => some []) doc.content

/-! Writer: parseContentForInsertion. -/

inductive FmtType where
  | heading
  | link
  | bullet
  deriving DecidableEq, Repr

structure FormattingRequest where
  type : FmtType
  startIndex : Nat
  endIndex : Nat
  level : Option Nat
  url : Option (List Char)
  deriving DecidableEq, Repr

structure ParsedContent where
  plainText : List Char
  formattingRequests : List FormattingRequest
  deriving DecidableEq, Repr

/-- Marker detection at the start of a line: heading level, bullet flag, and
the line with the marker stripped, as at the top of the line loop. -/
def detectMarker (line : List Char) : Nat × Bool × List Char :=
  if isPfx (str "[H1] ") line then (1, false, line.drop 5)
  else if isPfx (str "[H2] ") line then (2, false, line.drop 5)
  else if isPfx (str "[H3] ") line then (3, false, line.drop 5)
  else if isPfx (str "• ") line then (0, true, line.drop 2)
  else if isPfx (str "* ") line then (0, true, line.drop 2)
  else (0, false, line)

/-- Match of the link pattern at the start of s, as one step of the link
regular expression: the label, the url and the remaining characters. -/
def matchLinkAt (s : List Char) : Option (List Char × List Char × List Char) :=
  match s with
  | '[' :: rest =>
    let label := rest.takeWhile (fun c => c != ']')
    match rest.dropWhile (fun c => c != ']') with
    | ']' :: '(' :: rest2 =>
      if label = [] then none
      else
        let url := rest2.takeWhile (fun c => c != ')')
        match rest2.dropWhile (fun c => c != ')') with
        | ')' :: rem => if url = [] then none else some (label, url, rem)
        | _ => none
    | _ => none
  | _ => none

/-- Fueled left to right scan of one line for link markup, as the matchAll
loop of parseContentForInsertion: emits the processed text and the link
requests, with outPos the absolute position where the next emitted character
will land. -/
def processLineF : Nat → List Char → Nat → List Char × List FormattingRequest
  | 0, _, _ => ([], [])
  | _ + 1, [], _ => ([], [])
  | fuel + 1, c :: rest, outPos =>
    match matchLinkAt (c :: rest) with
    | some (label, url, rem) =>
      let next := processLineF fuel rem (outPos + label.length)
      (label ++ next.1,
       { type := FmtType.link, startIndex := outPos
       , endIndex := outPos + label.length, level := none, url := some url } :: next.2)
    | none =>
      let next := processLineF fuel rest (outPos + 1)
      (c :: next.1, next.2)

/-- Link processing of one line (the fuel equals the line length, which is
always sufficient). -/
def processLine (s : List Char) (outPos : Nat) : List Char × List FormattingRequest :=
  processLineF s.length s outPos

/-- Per line loop of parseContentForInsertion over the already split lines,
carrying the running cursor. -/
def parseLines : List (List Char) → Nat → ParsedContent
  | [], _ => { plainText := [], formattingRequests := [] }
  | line :: rest, currentIndex =>
    let m := detectMarker line
    let pl := processLine m.2.2 currentIndex
    let lineWithNewline := if rest = [] then pl.1 else pl.1 ++ ['\n']
    let headReqs : List FormattingRequest :=
      if 0 < m.1 ∧ pl.1 ≠ [] then
        [{ type := FmtType.heading, startIndex := currentIndex
         , endIndex := currentIndex + lineWithNewline.length
         , level := some m.1, url := none }]
      else []
    let bulletReqs : List FormattingRequest :=
      if m.2.1 = true ∧ pl.1 ≠ [] then
        [{ type := FmtType.bullet, startIndex := currentIndex
         , endIndex := currentIndex + lineWithNewline.length
         , level := none, url := none }]
      else []
    let next := parseLines rest (currentIndex + lineWithNewline.length)
    { plainText := lineWithNewline ++ next.plainText
    , formattingRequests := pl.2 ++ headReqs ++ bulletReqs ++ next.formattingRequests }

/-- parseContentForInsertion from document-parser.ts. -/
def parseContentForInsertion (content : List Char) (insertionIndex : Nat) : ParsedContent :=
  parseLines (splitOnNl content) insertionIndex

/-! Request assembly: generateInsertRequests and the google-docs.ts
composites. -/

inductive Request where
  | insertText (index : Nat) (text : List Char)
  | updateParagraphStyle (startIndex endIndex : Nat) (style : NamedStyleType)
  | clearTextStyle (startIndex endIndex : Nat)
  | createParagraphBullets (startIndex endIndex : Nat)
  | linkTextStyle (startIndex endIndex : Nat) (url : List Char)
  | deleteContentRange (startIndex endIndex : Nat)
  deriving DecidableEq, Repr

/-- Request, if any, emitted for one formatting entry by the final loop of
generateInsertRequests, with truthiness of level and url as in the source. -/
def formattingToRequest (fmt : FormattingRequest) : Option Request :=
  if fmt.type = FmtType.heading ∧ jsOr fmt.level 0 ≠ 0 then
    some (Request.updateParagraphStyle fmt.startIndex fmt.endIndex
      (if jsOr fmt.level 0 = 1 then NamedStyleType.HEADING_1
       else if jsOr fmt.level 0 = 2 then NamedStyleType.HEADING_2
       else NamedStyleType.HEADING_3))
  else if fmt.type = FmtType.bullet then
    some (Request.createParagraphBullets fmt.startIndex fmt.endIndex)
  else if fmt.type = FmtType.link ∧ fmt.url.getD [] ≠ [] then
    some (Request.linkTextStyle fmt.startIndex fmt.endIndex (fmt.url.getD []))
  else none

/-- Stable insertion into a list sorted by descending startIndex. -/
def insertDesc (r : FormattingRequest) : List FormattingRequest → List FormattingRequest
  | [] => [r]
  | x :: xs => if x.startIndex < r.startIndex then r :: x :: xs else x :: insertDesc r xs

/-- Stable sort by descending startIndex, as the Array.prototype.sort call of
generateInsertRequests. -/
def sortDesc (l : List FormattingRequest) : List FormattingRequest :=
  l.foldr insertDesc []

/-- generateInsertRequests from document-parser.ts. -/
def generateInsertRequests (content : List Char) (insertionIndex : Nat) : List Request :=
  let parsed := parseContentForInsertion content insertionIndex
  let pt := parsed.plainText
  let base : List Request :=
    if pt = [] then []
    else
      let styleEnd := if pt.getLast? = some '\n' then insertionIndex + pt.length - 1
                      else insertionIndex + pt.length
      Request.insertText insertionIndex pt ::
        ((if insertionIndex < styleEnd then
            [Request.updateParagraphStyle insertionIndex styleEnd NamedStyleType.NORMAL_TEXT]
          else []) ++ [Request.clearTextStyle insertionIndex (insertionIndex + pt.length)])
  base ++ (sortDesc parsed.formattingRequests).filterMap formattingToRequest

/-- generateDeleteRequest from document-parser.ts. -/
def generateDeleteRequest (startIndex endIndex : Nat) : Request :=
  Request.deleteContentRange startIndex endIndex

/-- Request list assembled by replaceSection in google-docs.ts; none when the
heading is not found and the function throws. -/
def replaceSectionRequests (doc : Document) (headingText newContent : List Char) :
    Option (List Request) :=
  match findHeadingByText doc headingText with
  | none => none
  | some heading =>
    let sectionEnd := findSectionEnd doc heading
    let del := if heading.endIndex < sectionEnd then
        [generateDeleteRequest heading.endIndex sectionEnd] else []
    some (del ++ generateInsertRequests ('\n' :: (newContent ++ ['\n'])) heading.endIndex)

/-- Request list assembled by replaceDocument in google-docs.ts. -/
def replaceDocumentRequests (doc : Document) (content : List Char) : List Request :=
  let endIndex := getDocumentEndIndex doc
  (if 1 < endIndex then [generateDeleteRequest 1 endIndex] else []) ++
    generateInsertRequests content 1

/-! Specification side definitions, used to state the claims against the
embedded code. -/

/-- All positions at which pat occurs inside s, in increasing order. -/
def occurrences (s pat : List Char) : List Nat :=
  (List.range s.length).filter (fun p => isPfx pat (s.drop p))

/-- Expected matches inside one inline run: every occurrence, reported at the
absolute offset of the run plus the in-run offset. -/
def expectedRunMatches (searchText searchLower : List Char) (caseSensitive : Bool)
    (elem : ParagraphElem) : List TextMatch :=
  match elem.textRun with
  | none => []
  | some tr =>
    let text := tr.content.getD []
    if text = [] then []
    else
      let textToSearch := if caseSensitive then text else lowerStr text
      let elemStart := jsOr elem.startIndex 0
      (occurrences textToSearch searchLower).map fun p =>
        { text := (text.drop p).take searchText.length
        , startIndex := elemStart + p
        , endIndex := elemStart + p + searchText.length }

/-- Expected result of findTextInDocument: per run occurrence lists in
document order, runs searched independently. -/
def expectedMatches (doc : Document) (searchText : List Char) (caseSensitive : Bool) :
    List TextMatch :=
  let searchLower := if caseSensitive then searchText else lowerStr searchText
  doc.content.flatMap fun e =>
    match e.block with
    | BlockContent.paragraph p =>
        p.elements.flatMap (expectedRunMatches searchText searchLower caseSensitive)
    | _ => []

/-- The document holds at least one inline run with non-empty text. -/
def hasNonemptyRun (doc : Document) : Bool :=
  doc.content.any fun e =>
    match e.block with
    | BlockContent.paragraph p =>
      p.elements.any fun el =>
        match el.textRun with
        | some tr => !(tr.content.getD []).isEmpty
        | none => false
    | _ => false

/-- Start offset of a structural element as read by the parser. -/
def st (e : StructuralElement) : Nat := jsOr e.startIndex 0

/-- End offset of a structural element as read by the parser. -/
def en (e : StructuralElement) : Nat := jsOr e.endIndex 0

/-- The elements appear in increasing offset order. -/
def sortedElems : List StructuralElement → Bool
  | [] => true
  | [_] => true
  | a :: b :: rest => decide (en a ≤ st b) && sortedElems (b :: rest)

/-- Well formed document snapshot: every element spans a non-empty range and
the elements appear in increasing offset order. -/
def WFdoc (doc : Document) : Prop :=
  (∀ e ∈ doc.content, st e < en e) ∧ sortedElems doc.content = true

/-- The run renders as link markup in documentToText. -/
def linkActive (tr : TextRun) : Bool :=
  match tr.linkUrl with
  | some url => !url.isEmpty && !(trimStr (tr.content.getD [])).isEmpty
  | none => false

/-- The line begins with one of the reserved markers of the wire format. -/
def startsWithMarker (s : List Char) : Bool :=
  isPfx (str "[H1] ") s || isPfx (str "[H2] ") s || isPfx (str "[H3] ") s ||
    isPfx (str "• ") s || isPfx (str "* ") s

/-- Some position of s matches the inline link pattern. -/
def containsLinkPattern : List Char → Bool
  | [] => false
  | c :: rest => (matchLinkAt (c :: rest)).isSome || containsLinkPattern rest

/-- Plain paragraph text of the document, one line per paragraph, with each
paragraph's trailing newline stripped. -/
def docParagraphLines (doc : Document) : List (List Char) :=
  doc.content.filterMap fun e =>
    match e.block with
    | BlockContent.paragraph p => some (stripNl (paragraphText p))
    | _ => none

/-- Round trip side conditions on one structural element: a paragraph whose
text either has visible content or is one bare newline, holds no interior
newline, does not start with a reserved marker, contains no inline link
pattern, and whose runs carry no active link; tables are excluded, other
blocks are inert. -/
def elementOk (e : StructuralElement) : Bool :=
  match e.block with
  | BlockContent.paragraph p =>
      (!(trimStr (paragraphText p)).isEmpty || paragraphText p == ['\n']) &&
      !(decide ('\n' ∈ stripNl (paragraphText p))) &&
      !startsWithMarker (stripNl (paragraphText p)) &&
      !containsLinkPattern (stripNl (paragraphText p)) &&
      p.elements.all (fun el =>
        match el.textRun with
        | some tr => !linkActive tr
        | none => true)
  | BlockContent.table => false
  | BlockContent.other => true

/-! Concrete documents used as witnesses and counterexamples. -/

/-- A paragraph holding one plain run of the given text. -/
def mkRun (text : String) : ParagraphElem :=
  { startIndex := none, textRun := some { content := some (str text), linkUrl := none } }

/-- A plain paragraph element over a given range with a single run whose run
start offset is the element start offset. -/
def mkPara (s e : Nat) (style : Option NamedStyleType) (bul : Bool) (text : String) :
    StructuralElement :=
  { startIndex := some s, endIndex := some e
  , block := BlockContent.paragraph
      { namedStyleType := style, bullet := bul
      , elements := [{ startIndex := some s
                     , textRun := some { content := some (str text), linkUrl := none } }] } }

/-- Leading section break of a real document snapshot. -/
def sectionBreakElem : StructuralElement :=
  { startIndex := some 0, endIndex := some 1, block := BlockContent.other }

/-- Document for the heading lookup example: headings Plan and Plan B. -/
def exDocPlan : Document :=
  { content := [ sectionBreakElem
               , mkPara 1 6 (some NamedStyleType.HEADING_1) false "Plan\n"
               , mkPara 6 14 (some NamedStyleType.HEADING_1) false "Plan B\n" ] }

/-- Document for the replace-section example: a heading ending at 20 whose
section spans up to 50. -/
def exDocSection : Document :=
  { content := [ sectionBreakElem
               , mkPara 1 15 none false "Some preamble\n"
               , mkPara 15 20 (some NamedStyleType.HEADING_1) false "Head\n"
               , mkPara 20 50 none false "Body text\n"
               , mkPara 50 55 (some NamedStyleType.HEADING_1) false "Next\n" ] }

/-- The request is a NORMAL_TEXT paragraph style reset. -/
def isNormalTextReset : Request → Bool
  | Request.updateParagraphStyle _ _ NamedStyleType.NORMAL_TEXT => true
  | _ => false

/-- The request is a content range deletion. -/
def isDelete : Request → Bool
  | Request.deleteContentRange _ _ => true
  | _ => false

/-- The request is a raw text insertion. -/
def isInsert : Request → Bool
  | Request.insertText _ _ => true
  | _ => false

/-- A heading styled paragraph that also carries a bullet attribute. -/
def exHBpara : Paragraph :=
  { namedStyleType := some NamedStyleType.HEADING_1, bullet := true
  , elements := [mkRun "Hi\n"] }

/-- Document whose single paragraph is a heading styled bullet. -/
def exDocHeadingBullet : Document :=
  { content := [ sectionBreakElem
               , { startIndex := some 1, endIndex := some 4
                 , block := BlockContent.paragraph exHBpara } ] }

/-- Document whose last element is a heading: the section end falls one short
of the heading's own end offset. -/
def exDocLastHeading : Document :=
  { content := [ sectionBreakElem
               , mkPara 1 7 (some NamedStyleType.HEADING_1) false "Title\n" ] }

/-- Document with headings A, B, C of levels 1, 2, 1 for the nesting example. -/
def exDocNesting : Document :=
  { content := [ sectionBreakElem
               , mkPara 1 3 (some NamedStyleType.HEADING_1) false "A\n"
               , mkPara 3 5 none false "x\n"
               , mkPara 5 7 (some NamedStyleType.HEADING_2) false "B\n"
               , mkPara 7 9 none false "y\n"
               , mkPara 9 11 (some NamedStyleType.HEADING_1) false "C\n" ] }

/-- Two top level headings followed by a deeper heading: h2 after h1 with a
larger level but outside the section of h1. -/
def exDocNonNested : Document :=
  { content := [ sectionBreakElem
               , mkPara 1 3 (some NamedStyleType.HEADING_1) false "A\n"
               , mkPara 3 5 (some NamedStyleType.HEADING_1) false "B\n"
               , mkPara 5 7 (some NamedStyleType.HEADING_2) false "C\n" ] }

/-- Document holding one run of text aaa, for the overlap example. -/
def exDocAaa : Document :=
  { content := [ sectionBreakElem
               , mkPara 1 5 none false "aaa\n" ] }

/-- Document whose only paragraph text is whitespace followed by a newline. -/
def exDocBlankish : Document :=
  { content := [ sectionBreakElem
               , mkPara 1 5 none false "   \n" ] }

/-- Document with a heading, a bullet, a blank line and a plain paragraph,
for the round trip witness. -/
def exDocRoundTrip : Document :=
  { content := [ sectionBreakElem
               , mkPara 1 7 (some NamedStyleType.HEADING_1) false "Title\n"
               , mkPara 7 12 none true "item\n"
               , mkPara 12 13 none false "\n"
               , mkPara 13 19 none false "hello\n" ] }

/-- Non-empty document for the replace-document witness. -/
def exDocNonEmpty : Document :=
  { content := [ sectionBreakElem
               , mkPara 1 7 none false "hello\n" ] }

/-- Document with no content blocks at all. -/
def exDocEmpty : Document := { content := [] }

/-! Helper lemmas about the string model. -/

theorem splitOnNl_no_nl (s : List Char) (h : '\n' ∉ s) : splitOnNl s = [s] := by
  induction s with
  | nil => rfl
  | cons c t ih =>
    have hc : c ≠ '\n' := fun hc => h (by simp [hc])
    have ht : '\n' ∉ t := fun hm => h (by simp [hm])
    simp [splitOnNl, hc, ih ht]

theorem splitOnNl_append (s t : List Char) (h : '\n' ∉ s) :
    splitOnNl (s ++ '\n' :: t) = s :: splitOnNl t := by
  induction s with
  | nil => simp [splitOnNl]
  | cons c u ih =>
    have hc : c ≠ '\n' := fun hc => h (by simp [hc])
    have hu : '\n' ∉ u := fun hm => h (by simp [hm])
    simp [splitOnNl, hc, ih hu]

theorem detectMarker_nil : detectMarker [] = (0, false, []) := by decide

theorem processLine_nil (k : Nat) : processLine [] k = ([], []) := rfl

theorem parseLines_single_nil (k : Nat) :
    parseLines [[]] k = { plainText := [], formattingRequests := [] } := by
  simp [parseLines, detectMarker_nil, processLine_nil]

/-! Helper lemmas about List.find?. -/

theorem find?_first {α} (p : α → Bool) (l₁ l₂ : List α) (a : α)
    (h1 : ∀ x ∈ l₁, p x = false) (h2 : p a = true) :
    List.find? p (l₁ ++ a :: l₂) = some a := by
  induction l₁ with
  | nil => simp [List.find?_cons, h2]
  | cons x xs ih =>
    have hx := h1 x (by simp)
    simp only [List.cons_append, List.find?_cons, hx]
    exact ih (fun y hy => h1 y (by simp [hy]))

theorem find?_split {α} (p : α → Bool) (l : List α) (a : α)
    (h : List.find? p l = some a) :
    p a = true ∧ ∃ l₁ l₂, l = l₁ ++ a :: l₂ ∧ ∀ x ∈ l₁, p x = false := by
  induction l with
  | nil => simp [List.find?] at h
  | cons x xs ih =>
    by_cases hx : p x = true
    · rw [List.find?_cons_of_pos _ hx] at h
      cases h
      exact ⟨hx, [], xs, by simp⟩
    · have hx' : p x = false := by simpa using hx
      rw [List.find?_cons_of_neg _ (by simp [hx'])] at h
      obtain ⟨hpa, l₁, l₂, hsplit, hall⟩ := ih h
      exact ⟨hpa, x :: l₁, l₂, by simp [hsplit], by
        intro y hy
        rcases List.mem_cons.mp hy with rfl | hy'
        · exact hx'
        · exact hall y hy'⟩

/-! C1: heading formatting range and the trailing newline. -/

/-- C1, counterexample: parsing the single-line input [H2] Title at insertion
index 10 emits a heading Formatting Request with endIndex 15, and no request
with endIndex 10 + len of Title plus newline = 16, contradicting the claim's
concrete assertion. -/
theorem c1_counterexample :
    (parseContentForInsertion (str "[H2] Title") 10).formattingRequests
      = [{ type := FmtType.heading, startIndex := 10, endIndex := 15
         , level := some 2, url := none }] ∧
    ¬ ∃ r ∈ (parseContentForInsertion (str "[H2] Title") 10).formattingRequests,
        r.endIndex = 10 + (str "Title\n").length := by
  decide

/-- C1, amended: for a heading marked line, the recorded heading Formatting
Request spans from the cursor to the cursor plus the length of the processed
line as emitted: when the line is not the last one a trailing newline is
appended and included, and for the last line no newline is appended, so the
range ends at the cursor plus the bare processed line length. -/
theorem c1_amended (s : List Char) (idx lvl : Nat) (stripped : List Char)
    (hnl : '\n' ∉ s) (hm : detectMarker s = (lvl, false, stripped)) (hlvl : 0 < lvl)
    (hne : (processLine stripped idx).1 ≠ []) :
    (parseContentForInsertion s idx).formattingRequests
      = (processLine stripped idx).2 ++
        [{ type := FmtType.heading, startIndex := idx
         , endIndex := idx + (processLine stripped idx).1.length
         , level := some lvl, url := none }] ∧
    (parseContentForInsertion (s ++ ['\n']) idx).formattingRequests
      = (processLine stripped idx).2 ++
        [{ type := FmtType.heading, startIndex := idx
         , endIndex := idx + ((processLine stripped idx).1.length + 1)
         , level := some lvl, url := none }] := by
  constructor
  · rw [parseContentForInsertion, splitOnNl_no_nl s hnl]
    simp [parseLines, hm, hlvl, hne, not_lt_of_lt hlvl]
  · rw [parseContentForInsertion]
    have : s ++ ['\n'] = s ++ '\n' :: [] := rfl
    rw [this, splitOnNl_append s [] hnl]
    simp [parseLines, hm, hlvl, hne, parseLines_single_nil, splitOnNl,
      detectMarker_nil, processLine_nil]

/-- C1, witness: for the single-line input [H2] Title at insertion index 10
the heading request ends at 15, and with an explicit trailing newline it ends
at 16. -/
theorem c1_witness :
    (parseContentForInsertion (str "[H2] Title") 10).formattingRequests
      = (processLine (str "Title") 10).2 ++
        [{ type := FmtType.heading, startIndex := 10
         , endIndex := 10 + (processLine (str "Title") 10).1.length
         , level := some 2, url := none }] ∧
    (parseContentForInsertion (str "[H2] Title" ++ ['\n']) 10).formattingRequests
      = (processLine (str "Title") 10).2 ++
        [{ type := FmtType.heading, startIndex := 10
         , endIndex := 10 + ((processLine (str "Title") 10).1.length + 1)
         , level := some 2, url := none }] :=
  c1_amended (str "[H2] Title") 10 2 (str "Title") (by decide) (by decide)
    (by decide) (by decide)

/-! C2: delete before insert in replaceSection. -/

/-- C2: when the heading is found and its section has content, the request
list of replaceSection is exactly the deletion of the section body followed by
the insert requests anchored at the heading end, so the delete of the range
from heading.endIndex to the section end strictly precedes every insert
operation at that index. -/
theorem c2 (doc : Document) (headingText newContent : List Char) (heading : HeadingInfo)
    (hfind : findHeadingByText doc headingText = some heading)
    (hlt : heading.endIndex < findSectionEnd doc heading) :
    replaceSectionRequests doc headingText newContent
      = some (Request.deleteContentRange heading.endIndex (findSectionEnd doc heading)
          :: generateInsertRequests ('\n' :: (newContent ++ ['\n'])) heading.endIndex) := by
  simp [replaceSectionRequests, hfind, generateDeleteRequest, hlt]

/-- C2, witness: on the document whose section spans from 20 to 50 with the
heading ending at 20, the delete of that range is the first request, before
the insert at 20. -/
theorem c2_witness :
    replaceSectionRequests exDocSection (str "Head") (str "New")
      = some (Request.deleteContentRange 20 50
          :: generateInsertRequests (str "\nNew\n") 20) :=
  c2 exDocSection (str "Head") (str "New")
    { text := str "Head", level := 1, startIndex := 15, endIndex := 20 }
    (by decide) (by decide)

/-! C3: the NORMAL_TEXT paragraph style reset range. -/

/-- C3, counterexample: parsing a bare newline at index 5 yields the non-empty
plain text newline, yet generateInsertRequests emits no NORMAL_TEXT paragraph
style reset at all, contradicting the claim's universal emission. -/
theorem c3_counterexample :
    (parseContentForInsertion (str "\n") 5).plainText = ['\n'] ∧
    generateInsertRequests (str "\n") 5
      = [Request.insertText 5 ['\n'], Request.clearTextStyle 5 6] ∧
    (∀ r ∈ generateInsertRequests (str "\n") 5, isNormalTextReset r = false) := by
  decide

/-- C3, amended: whenever the parsed plain text is non-empty and not a single
newline, generateInsertRequests emits the NORMAL_TEXT paragraph style reset
directly after the insert, over a range that ends one before the end of the
inserted text when it ends with a newline and at its end otherwise. -/
theorem c3_amended (content : List Char) (idx : Nat)
    (h1 : (parseContentForInsertion content idx).plainText ≠ [])
    (h2 : (parseContentForInsertion content idx).plainText ≠ ['\n']) :
    ∃ tail,
      generateInsertRequests content idx
        = Request.insertText idx (parseContentForInsertion content idx).plainText
          :: Request.updateParagraphStyle idx
               (if (parseContentForInsertion content idx).plainText.getLast? = some '\n'
                then idx + (parseContentForInsertion content idx).plainText.length - 1
                else idx + (parseContentForInsertion content idx).plainText.length)
               NamedStyleType.NORMAL_TEXT :: tail := by
  set pt := (parseContentForInsertion content idx).plainText with hpt
  have hstyle : idx < (if pt.getLast? = some '\n' then idx + pt.length - 1
      else idx + pt.length) := by
    by_cases hl : pt.getLast? = some '\n'
    · have h2len : 2 ≤ pt.length := by
        match pt, h1, h2 with
        | [c], _, hne =>
          simp [List.getLast?] at hl
          exact absurd (by rw [hl]) hne
        | c :: d :: t, _, _ => simp
      rw [if_pos hl]
      omega
    · rw [if_neg hl]
      have : 0 < pt.length := List.length_pos.mpr h1
      omega
  refine ⟨(if (parseContentForInsertion content idx).plainText = [] then []
      else [Request.clearTextStyle idx (idx + pt.length)]) ++
      (sortDesc (parseContentForInsertion content idx).formattingRequests).filterMap
        formattingToRequest, ?_⟩
  rw [generateInsertRequests]
  simp only [← hpt, if_neg h1, if_pos hstyle]
  simp

/-- C3, witness: inserting Hello with a newline at index 5 emits the reset
over the range from 5 to 10, excluding the final newline. -/
theorem c3_witness :
    ∃ tail,
      generateInsertRequests (str "Hello\n") 5
        = Request.insertText 5 (str "Hello\n")
          :: Request.updateParagraphStyle 5 10 NamedStyleType.NORMAL_TEXT :: tail := by
  have h := c3_amended (str "Hello\n") 5 (by decide) (by decide)
  simpa using h

/-! C4: a heading styled bullet paragraph. -/

/-- C4, counterexample: the document whose single paragraph is a HEADING_1
styled bullet renders with the bullet marker, not the heading marker: the
bullet check overwrites the heading prefix in documentToText. -/
theorem c4_counterexample :
    documentToText exDocHeadingBullet = str "• Hi" ∧
    isPfx (str "[H1]") (documentToText exDocHeadingBullet) = false ∧
    isPfx (str "• ") (documentToText exDocHeadingBullet) = true := by
  decide

/-- C4, amended: every paragraph carrying a bullet attribute whose rendered
text does not trim to empty is emitted with the bullet prefix, whatever its
named style: the bullet takes precedence and the heading marker is dropped. -/
theorem c4_amended (e : StructuralElement) (p : Paragraph)
    (hb : e.block = BlockContent.paragraph p) (hbul : p.bullet = true)
    (ht : trimStr (paragraphRendered p) ≠ []) :
    renderElement e = some (str "• " ++ stripNl (paragraphRendered p)) := by
  simp [renderElement, hb, hbul, ht]

/-- C4, witness: the HEADING_1 styled bullet paragraph renders with the
bullet prefix. -/
theorem c4_witness :
    renderElement
        { startIndex := some 1, endIndex := some 4
        , block := BlockContent.paragraph exHBpara }
      = some (str "• " ++ stripNl (paragraphRendered exHBpara)) :=
  c4_amended _ exHBpara rfl (by decide) (by decide)

/-! C5: exact heading match precedes substring match. -/

/-- C5: findHeadingByText returns the first heading in document order whose
case-folded text equals the trimmed case-folded query when one exists, and
only when no heading matches exactly does it return the first heading whose
case-folded text contains the query as a substring. -/
theorem c5 (doc : Document) (q : List Char) (l₁ : List HeadingInfo)
    (h : HeadingInfo) (l₂ : List HeadingInfo) :
    (findHeadings doc = l₁ ++ h :: l₂ →
      lowerStr h.text = trimStr (lowerStr q) →
      (∀ x ∈ l₁, lowerStr x.text ≠ trimStr (lowerStr q)) →
      findHeadingByText doc q = some h) ∧
    ((∀ x ∈ findHeadings doc, lowerStr x.text ≠ trimStr (lowerStr q)) →
      findHeadings doc = l₁ ++ h :: l₂ →
      includesStr (lowerStr h.text) (trimStr (lowerStr q)) = true →
      (∀ x ∈ l₁, includesStr (lowerStr x.text) (trimStr (lowerStr q)) = false) →
      findHeadingByText doc q = some h) := by
  constructor
  · intro hsplit hexact hpre
    have hfind : List.find? (fun x => lowerStr x.text == trimStr (lowerStr q))
        (findHeadings doc) = some h := by
      rw [hsplit]
      exact find?_first _ _ _ _
        (fun x hx => beq_eq_false_iff_ne.mpr (hpre x hx))
        (beq_iff_eq.mpr hexact)
    simp [findHeadingByText, hfind]
  · intro hall hsplit hsub hpre
    have hnone : List.find? (fun x => lowerStr x.text == trimStr (lowerStr q))
        (findHeadings doc) = none :=
      List.find?_eq_none.mpr fun x hx => by
        simpa using hall x hx
    have hfind : List.find? (fun x => includesStr (lowerStr x.text) (trimStr (lowerStr q)))
        (findHeadings doc) = some h := by
      rw [hsplit]
      exact find?_first _ _ _ _ hpre hsub
    simp [findHeadingByText, hnone, hfind]

/-- C5, witness: with headings Plan and Plan B in order, the query Plan
returns the exact Plan heading, not Plan B. -/
theorem c5_witness :
    findHeadingByText exDocPlan (str "Plan")
      = some { text := str "Plan", level := 1, startIndex := 1, endIndex := 6 } :=
  (c5 exDocPlan (str "Plan") []
      { text := str "Plan", level := 1, startIndex := 1, endIndex := 6 }
      [{ text := str "Plan B", level := 1, startIndex := 6, endIndex := 14 }]).1
    (by decide) (by decide) (by decide)

/-! C7: whole document replacement. -/

theorem formattingToRequest_not_delete (fmt : FormattingRequest) (r : Request)
    (h : formattingToRequest fmt = some r) : isDelete r = false := by
  unfold formattingToRequest at h
  split_ifs at h <;> (try cases h) <;> (try rfl)

theorem no_delete_in_insert_requests (c : List Char) (i a b : Nat) :
    Request.deleteContentRange a b ∉ generateInsertRequests c i := by
  intro hmem
  rw [generateInsertRequests] at hmem
  rcases List.mem_append.mp hmem with hbase | hfmt
  · split at hbase
    · simp at hbase
    · rcases List.mem_cons.mp hbase with heq | hbase'
      · exact absurd heq (by simp)
      · rcases List.mem_append.mp hbase' with hif | hclear
        · split at hif <;> simp at hif
        · simp at hclear
  · obtain ⟨fmt, _, hf⟩ := List.mem_filterMap.mp hfmt
    have := formattingToRequest_not_delete fmt _ hf
    simp [isDelete] at this

/-- C7: the document end used by replaceDocument is the last content block's
end offset minus one; an empty content list yields end 1 and no delete is
emitted; and when the document end exceeds 1 the delete of the range from 1 to
the document end is the first request, followed by the insert at index 1. -/
theorem c7 (doc : Document) (content : List Char) :
    (∀ e, doc.content.getLast? = some e →
       getDocumentEndIndex doc = jsOr e.endIndex 1 - 1) ∧
    (doc.content = [] →
       getDocumentEndIndex doc = 1 ∧
       replaceDocumentRequests doc content = generateInsertRequests content 1 ∧
       ∀ a b, Request.deleteContentRange a b ∉ replaceDocumentRequests doc content) ∧
    (1 < getDocumentEndIndex doc →
       replaceDocumentRequests doc content
         = Request.deleteContentRange 1 (getDocumentEndIndex doc)
             :: generateInsertRequests content 1 ∧
       ((parseContentForInsertion content 1).plainText ≠ [] →
         ∃ tail, replaceDocumentRequests doc content
           = Request.deleteContentRange 1 (getDocumentEndIndex doc)
               :: Request.insertText 1 (parseContentForInsertion content 1).plainText
               :: tail)) := by
  refine ⟨?_, ?_, ?_⟩
  · intro e he
    rw [getDocumentEndIndex, he]
  · intro hnil
    have hend : getDocumentEndIndex doc = 1 := by
      rw [getDocumentEndIndex, hnil]
      rfl
    refine ⟨hend, ?_, ?_⟩
    · rw [replaceDocumentRequests, hend]
      simp
    · intro a b hmem
      rw [replaceDocumentRequests, hend] at hmem
      simp at hmem
      exact no_delete_in_insert_requests content 1 a b hmem
  · intro hgt
    have hreq : replaceDocumentRequests doc content
        = Request.deleteContentRange 1 (getDocumentEndIndex doc)
            :: generateInsertRequests content 1 := by
      rw [replaceDocumentRequests]
      simp [hgt, generateDeleteRequest]
    refine ⟨hreq, ?_⟩
    intro hne
    refine ⟨(if (parseContentForInsertion content 1).plainText = [] then []
        else
          (if 1 < (if (parseContentForInsertion content 1).plainText.getLast? = some '\n'
              then 1 + (parseContentForInsertion content 1).plainText.length - 1
              else 1 + (parseContentForInsertion content 1).plainText.length) then
            [Request.updateParagraphStyle 1
              (if (parseContentForInsertion content 1).plainText.getLast? = some '\n'
               then 1 + (parseContentForInsertion content 1).plainText.length - 1
               else 1 + (parseContentForInsertion content 1).plainText.length)
              NamedStyleType.NORMAL_TEXT]
          else []) ++
          [Request.clearTextStyle 1 (1 + (parseContentForInsertion content 1).plainText.length)]) ++
        (sortDesc (parseContentForInsertion content 1).formattingRequests).filterMap
          formattingToRequest, ?_⟩
    rw [hreq, generateInsertRequests]
    simp [hne]

/-- C7, witness: on a non-empty document the first request deletes from 1 to
the document end 6, and on the empty document no delete is emitted. -/
theorem c7_witness :
    replaceDocumentRequests exDocNonEmpty (str "hi")
      = Request.deleteContentRange 1 6 :: generateInsertRequests (str "hi") 1 ∧
    replaceDocumentRequests exDocEmpty (str "hi")
      = generateInsertRequests (str "hi") 1 :=
  ⟨((c7 exDocNonEmpty (str "hi")).2.2 (by decide)).1,
   ((c7 exDocEmpty (str "hi")).2.1 (by decide)).2.1⟩

/-! Characterisation of the indexOf based scan loop. -/

theorem isPfx_nil_left (s : List Char) : isPfx [] s = true := by
  cases s <;> rfl

theorem isPfx_cons_nil (a : Char) (l : List Char) : isPfx (a :: l) [] = false := rfl

theorem firstOccur_some (s pat : List Char) (r : Nat)
    (h : firstOccur s pat = some r) :
    isPfx pat (s.drop r) = true ∧ (∀ q, q < r → isPfx pat (s.drop q) = false) ∧
      r ≤ s.length := by
  induction s generalizing r with
  | nil =>
    rw [firstOccur] at h
    split at h
    · cases h
      refine ⟨by assumption, ?_, Nat.le_refl 0⟩
      intro q hq
      exact absurd hq (Nat.not_lt_zero q)
    · cases h
  | cons c t ih =>
    rw [firstOccur] at h
    split at h
    · cases h
      refine ⟨by assumption, ?_, Nat.zero_le _⟩
      intro q hq
      exact absurd hq (Nat.not_lt_zero q)
    · obtain ⟨r', hr', hrr⟩ := Option.map_eq_some'.mp h
      subst hrr
      obtain ⟨hp, hmin, hlen⟩ := ih r' hr'
      refine ⟨by simpa using hp, ?_, by simpa using Nat.succ_le_succ hlen⟩
      intro q hq
      match q with
      | 0 =>
        simp only [List.drop_zero]
        simpa using ‹¬ isPfx pat (c :: t) = true›
      | q' + 1 =>
        have : q' < r' := by omega
        simpa using hmin q' this

theorem firstOccur_none (s pat : List Char)
    (h : firstOccur s pat = none) : ∀ q, isPfx pat (s.drop q) = false := by
  induction s with
  | nil =>
    rw [firstOccur] at h
    split at h
    · cases h
    · intro q
      simpa using ‹¬ isPfx pat [] = true›
  | cons c t ih =>
    rw [firstOccur] at h
    split at h
    · cases h
    · have ht : firstOccur t pat = none := by
        cases hft : firstOccur t pat with
        | none => rfl
        | some r => rw [hft] at h; cases h
      intro q
      match q with
      | 0 => simpa using ‹¬ isPfx pat (c :: t) = true›
      | q' + 1 => simpa using ih ht q'

theorem firstOccur_nil_pat (u : List Char) : firstOccur u [] = some 0 := by
  cases u <;> simp [firstOccur, isPfx_nil_left]

theorem drop_shift (s : List Char) (m q : Nat) :
    (s.drop m).drop q = s.drop (m + q) := by
  rw [List.drop_drop, Nat.add_comm]

theorem jsIndexOf_none (s pat : List Char) (start : Nat) (hpat : pat ≠ [])
    (h : jsIndexOf s pat start = none) :
    ∀ q, start ≤ q → isPfx pat (s.drop q) = false := by
  intro q hq
  have hfo : firstOccur (s.drop (min start s.length)) pat = none := by
    cases hf : firstOccur (s.drop (min start s.length)) pat with
    | none => rfl
    | some r => rw [jsIndexOf, hf] at h; cases h
  by_cases hql : q ≤ s.length
  · have hm : min start s.length ≤ q := le_trans (min_le_left _ _) hq
    have := firstOccur_none _ _ hfo (q - min start s.length)
    rw [drop_shift, Nat.add_sub_cancel' hm] at this
    exact this
  · have : s.drop q = [] := List.drop_eq_nil_of_le (by omega)
    rw [this]
    match pat, hpat with
    | a :: l, _ => exact isPfx_cons_nil a l

theorem jsIndexOf_some (s pat : List Char) (start p : Nat) (hpat : pat ≠ [])
    (h : jsIndexOf s pat start = some p) :
    start ≤ p ∧ p < s.length ∧ isPfx pat (s.drop p) = true ∧
      ∀ q, start ≤ q → q < p → isPfx pat (s.drop q) = false := by
  obtain ⟨r, hfo, hp⟩ := Option.map_eq_some'.mp h
  obtain ⟨hpfx, hmin, hlen⟩ := firstOccur_some _ _ _ hfo
  rw [drop_shift] at hpfx
  have hstart : start ≤ s.length ∨ s.length < start := le_or_lt start s.length
  rcases hstart with hsle | hsgt
  · have hmeq : min start s.length = start := min_eq_left hsle
    rw [hmeq] at hpfx hmin hlen hp
    have hpval : p = start + r := by omega
    subst hpval
    have hlen' : r ≤ s.length - start := by simpa using hlen
    have hplt : start + r < s.length := by
      rcases Nat.lt_or_ge (start + r) s.length with hlt | hge
      · exact hlt
      · have hdrop : s.drop (start + r) = [] := List.drop_eq_nil_of_le (by omega)
        rw [hdrop] at hpfx
        match pat, hpat with
        | a :: l, _ => simp [isPfx_cons_nil] at hpfx
    refine ⟨by omega, hplt, hpfx, ?_⟩
    intro q hq1 hq2
    have := hmin (q - start) (by omega)
    rw [drop_shift, Nat.add_sub_cancel' hq1] at this
    exact this
  · have hmeq : min start s.length = s.length := min_eq_right (le_of_lt hsgt)
    rw [hmeq] at hfo
    rw [List.drop_length] at hfo
    match pat, hpat with
    | a :: l, _ =>
      rw [firstOccur] at hfo
      simp [isPfx_cons_nil] at hfo

theorem jsIndexOf_nil_pat (s : List Char) (start : Nat) :
    jsIndexOf s [] start = some (min start s.length) := by
  rw [jsIndexOf, firstOccur_nil_pat]
  simp

theorem range_filter_split (P Q : Nat → Bool) (n p : Nat) (hpn : p < n)
    (hP : P p = true) (hlow : ∀ q, q < p → P q = false)
    (hlowQ : ∀ q, q ≤ p → Q q = false) (hhigh : ∀ q, p < q → P q = Q q) :
    (List.range n).filter P = p :: (List.range n).filter Q := by
  induction n with
  | zero => exact absurd hpn (Nat.not_lt_zero p)
  | succ m ih =>
    rw [List.range_succ, List.filter_append, List.filter_append]
    rcases Nat.lt_or_ge p m with hpm | hpm
    · rw [ih hpm]
      have hm : P m = Q m := hhigh m hpm
      simp [List.filter_cons, hm]
    · have hpe : p = m := by omega
      subst hpe
      have h1 : (List.range p).filter P = [] := by
        rw [List.filter_eq_nil_iff]
        intro a ha
        simp [hlow a (List.mem_range.mp ha)]
      have h2 : (List.range p).filter Q = [] := by
        rw [List.filter_eq_nil_iff]
        intro a ha
        simp [hlowQ a (le_of_lt (List.mem_range.mp ha))]
      simp [h1, h2, List.filter_cons, hP, hlowQ p (Nat.le_refl p)]

theorem scanAux_eq (s pat : List Char) (hpat : pat ≠ []) :
    ∀ fuel start, s.length ≤ fuel + start →
      scanAux s pat start fuel
        = some ((List.range s.length).filter
            (fun p => decide (start ≤ p) && isPfx pat (s.drop p))) := by
  intro fuel
  induction fuel with
  | zero =>
    intro start hle
    have hj : jsIndexOf s pat start = none := by
      rw [jsIndexOf]
      have hm : min start s.length = s.length := min_eq_right (by omega)
      rw [hm, List.drop_length]
      match pat, hpat with
      | a :: l, _ => rw [firstOccur]; simp [isPfx_cons_nil]
    have hnil : (List.range s.length).filter
        (fun p => decide (start ≤ p) && isPfx pat (s.drop p)) = [] := by
      rw [List.filter_eq_nil_iff]
      intro a ha
      have : a < s.length := List.mem_range.mp ha
      simp [Nat.not_le.mpr (show a < start from by omega)]
    rw [hnil, scanAux, hj]
  | succ fuel ih =>
    intro start hle
    cases hj : jsIndexOf s pat start with
    | none =>
      have hnil : (List.range s.length).filter
          (fun p => decide (start ≤ p) && isPfx pat (s.drop p)) = [] := by
        rw [List.filter_eq_nil_iff]
        intro a _
        by_cases has : start ≤ a
        · simp [jsIndexOf_none s pat start hpat hj a has]
        · simp [has]
      rw [hnil, scanAux, hj]
    | some p =>
      obtain ⟨hsp, hplt, hpfx, hmin⟩ := jsIndexOf_some s pat start p hpat hj
      have hsplit : (List.range s.length).filter
            (fun q => decide (start ≤ q) && isPfx pat (s.drop q))
          = p :: (List.range s.length).filter
            (fun q => decide (p + 1 ≤ q) && isPfx pat (s.drop q)) := by
        apply range_filter_split _ _ s.length p hplt
        · simp [hsp, hpfx]
        · intro q hq
          by_cases hqs : start ≤ q
          · simp [hmin q hqs hq]
          · simp [hqs]
        · intro q hq
          simp [Nat.not_le.mpr (show q < p + 1 from by omega)]
        · intro q hq
          simp [show start ≤ q from by omega, show p + 1 ≤ q from by omega]
      rw [hsplit, scanAux, hj]
      show (scanAux s pat (p + 1) fuel).map (fun ps => p :: ps) = _
      rw [ih (p + 1) (by omega)]
      rfl

theorem scanAux_nil_pat (s : List Char) :
    ∀ fuel start, scanAux s [] start fuel = none := by
  intro fuel
  induction fuel with
  | zero =>
    intro start
    rw [scanAux, jsIndexOf_nil_pat]
  | succ fuel ih =>
    intro start
    rw [scanAux, jsIndexOf_nil_pat]
    show (scanAux s [] (min start s.length + 1) fuel).map _ = none
    rw [ih]
    rfl

/-! Lifting the scan characterisation through the document structure. -/

theorem optionJoinMap_some {α β} (f : α → Option (List β)) (g : α → List β)
    (l : List α) (h : ∀ x ∈ l, f x = some (g x)) :
    optionJoinMap f l = some (l.flatMap g) := by
  induction l with
  | nil => rfl
  | cons x xs ih =>
    rw [optionJoinMap, h x (by simp), ih (fun y hy => h y (by simp [hy]))]
    simp

theorem optionJoinMap_none {α β} (f : α → Option (List β)) (l : List α)
    (x : α) (hx : x ∈ l) (h : f x = none) :
    optionJoinMap f l = none := by
  induction l with
  | nil => cases hx
  | cons y ys ih =>
    rw [optionJoinMap]
    rcases List.mem_cons.mp hx with rfl | hy
    · rw [h]
    · cases hfy : f y with
      | none => rfl
      | some _ => rw [ih hy]

theorem lowerStr_ne_nil (s : List Char) (h : s ≠ []) : lowerStr s ≠ [] := by
  rw [lowerStr]
  simpa using h

theorem runMatches_none (searchText searchLower : List Char) (cs : Bool)
    (el : ParagraphElem) (tr : TextRun) (hrt : el.textRun = some tr)
    (hne : tr.content.getD [] ≠ []) (hsl : searchLower = []) :
    runMatches searchText searchLower cs el = none := by
  simp only [runMatches, hrt]
  rw [if_neg hne, hsl, scanAux_nil_pat]

theorem runMatches_eq (searchText searchLower : List Char) (cs : Bool)
    (elem : ParagraphElem) (hsl : searchLower ≠ []) :
    runMatches searchText searchLower cs elem
      = some (expectedRunMatches searchText searchLower cs elem) := by
  rw [runMatches, expectedRunMatches]
  cases elem.textRun with
  | none => rfl
  | some tr =>
    simp only
    by_cases ht : tr.content.getD [] = []
    · simp [ht]
    · rw [if_neg ht, if_neg ht]
      rw [scanAux_eq _ searchLower hsl _ 0 (by omega)]
      simp only [Option.some.injEq]
      congr 1
      rw [occurrences]
      apply List.filter_congr
      intro a _
      simp

theorem findText_eq_expected (doc : Document) (searchText : List Char) (cs : Bool)
    (hne : searchText ≠ []) :
    findTextInDocument doc searchText cs = some (expectedMatches doc searchText cs) := by
  have hsl : (if cs then searchText else lowerStr searchText) ≠ [] := by
    cases cs with
    | true => simpa using hne
    | false => simpa using lowerStr_ne_nil searchText hne
  rw [findTextInDocument, expectedMatches]
  apply optionJoinMap_some
  intro e _
  cases hb : e.block with
  | paragraph p =>
    simp only
    exact optionJoinMap_some _ _ _
      (fun el _ => runMatches_eq searchText _ cs el hsl)
  | table => rfl
  | other => rfl

/-- C8: for a non-empty needle, findTextInDocument terminates and reports,
run by run in document order, exactly the occurrence positions of the needle
inside each inline run, never across run boundaries, including overlapping
occurrences, each at the run's absolute start offset plus the in-run offset,
with endIndex startIndex plus the needle length. -/
theorem c8 (doc : Document) (searchText : List Char) (cs : Bool)
    (hne : searchText ≠ []) :
    findTextInDocument doc searchText cs = some (expectedMatches doc searchText cs) ∧
    ∀ m ∈ expectedMatches doc searchText cs,
      m.endIndex = m.startIndex + searchText.length := by
  refine ⟨findText_eq_expected doc searchText cs hne, ?_⟩
  intro m hm
  rw [expectedMatches] at hm
  obtain ⟨e, _, hme⟩ := List.mem_flatMap.mp hm
  cases hb : e.block with
  | paragraph p =>
    rw [hb] at hme
    simp only at hme
    obtain ⟨el, _, hmel⟩ := List.mem_flatMap.mp hme
    rw [expectedRunMatches] at hmel
    cases hrt : el.textRun with
    | none =>
      rw [hrt] at hmel
      simp at hmel
    | some tr =>
      rw [hrt] at hmel
      simp only at hmel
      by_cases ht : tr.content.getD [] = []
      · rw [if_pos ht] at hmel
        simp at hmel
      · rw [if_neg ht] at hmel
        obtain ⟨p', _, hmp⟩ := List.mem_map.mp hmel
        subst hmp
        rfl
  | table =>
    rw [hb] at hme
    simp at hme
  | other =>
    rw [hb] at hme
    simp at hme

/-- C8, witness: the needle aa against the single run aaa yields exactly the
two overlapping matches at absolute offsets 1 and 2. -/
theorem c8_witness :
    findTextInDocument exDocAaa (str "aa") false
      = some [ { text := str "aa", startIndex := 1, endIndex := 3 }
             , { text := str "aa", startIndex := 2, endIndex := 4 } ] :=
  (c8 exDocAaa (str "aa") false (by decide)).1

/-- C10: with a non-empty needle findTextInDocument terminates on every
document; with the empty needle the inner scan loop returns within no fuel
bound at all on any non-empty run text, and a document holding at least one
non-empty run makes findTextInDocument diverge. -/
theorem c10 (doc : Document) (searchText : List Char) (cs : Bool)
    (s : List Char) (start fuel : Nat) :
    (searchText ≠ [] → (findTextInDocument doc searchText cs).isSome = true) ∧
    (s ≠ [] → scanAux s [] start fuel = none) ∧
    (searchText = [] → hasNonemptyRun doc = true →
        findTextInDocument doc searchText cs = none) := by
  refine ⟨?_, ?_, ?_⟩
  · intro hne
    rw [findText_eq_expected doc searchText cs hne]
    rfl
  · intro _
    exact scanAux_nil_pat s fuel start
  · intro hempty hrun
    subst hempty
    rw [hasNonemptyRun, List.any_eq_true] at hrun
    obtain ⟨e, he, hetrue⟩ := hrun
    cases hb : e.block with
    | paragraph p =>
      rw [hb] at hetrue
      have hetrue' : (p.elements.any fun el =>
          match el.textRun with
          | some tr => !(tr.content.getD []).isEmpty
          | none => false) = true := hetrue
      rw [List.any_eq_true] at hetrue'
      obtain ⟨el, hel, heltrue⟩ := hetrue'
      cases hrt : el.textRun with
      | none =>
        rw [hrt] at heltrue
        simp at heltrue
      | some tr =>
        rw [hrt] at heltrue
        have heltrue' : (!(tr.content.getD []).isEmpty) = true := heltrue
        have hne2 : tr.content.getD [] ≠ [] := by
          intro hc
          rw [hc] at heltrue'
          simp at heltrue'
        rw [findTextInDocument]
        apply optionJoinMap_none _ _ e he
        rw [hb]
        apply optionJoinMap_none _ _ el hel
        exact runMatches_none _ _ cs el tr hrt hne2 (by cases cs <;> rfl)
    | table =>
      rw [hb] at hetrue
      exact Bool.noConfusion (show false = true from hetrue)
    | other =>
      rw [hb] at hetrue
      exact Bool.noConfusion (show false = true from hetrue)

/-- C10, witness: the needle aa terminates against the document holding aaa;
the scan loop on aaa with the empty needle finishes within no fuel bound; the
whole search with the empty needle diverges on that document. -/
theorem c10_witness :
    ((findTextInDocument exDocAaa (str "aa") false).isSome = true) ∧
    (scanAux (str "aaa") [] 0 5 = none) ∧
    (findTextInDocument exDocAaa [] false = none) :=
  ⟨(c10 exDocAaa (str "aa") false (str "aaa") 0 5).1 (by decide),
   (c10 exDocAaa (str "aa") false (str "aaa") 0 5).2.1 (by decide),
   (c10 exDocAaa [] false (str "aaa") 0 5).2.2 rfl (by decide)⟩

/-! Structure lemmas about well formed documents and their heading lists. -/

theorem sorted_pairwise : ∀ l : List StructuralElement,
    (∀ e ∈ l, st e < en e) → sortedElems l = true →
    l.Pairwise (fun a b => en a ≤ st b)
  | [], _, _ => List.Pairwise.nil
  | [a], _, _ => by simp
  | a :: b :: rest, hlt, hs => by
    obtain ⟨hab, hrest⟩ : decide (en a ≤ st b) = true ∧ sortedElems (b :: rest) = true := by
      rw [sortedElems] at hs
      simpa using hs
    have hab' : en a ≤ st b := of_decide_eq_true hab
    have ih := sorted_pairwise (b :: rest)
      (fun e he => hlt e (by simp [List.mem_cons.mp he])) hrest
    rw [List.pairwise_cons]
    refine ⟨?_, ih⟩
    intro c hc
    rcases List.mem_cons.mp hc with rfl | hc'
    · exact hab'
    · have hbc : en b ≤ st c := (List.pairwise_cons.mp ih).1 c hc'
      have hb : st b < en b := hlt b (by simp)
      omega

theorem pairwise_filterMap {α β : Type _} (R : α → α → Prop) (S : β → β → Prop)
    (f : α → Option β)
    (hf : ∀ a b x y, f a = some x → f b = some y → R a b → S x y) :
    ∀ l : List α, l.Pairwise R → (l.filterMap f).Pairwise S := by
  intro l hl
  induction l with
  | nil => exact List.Pairwise.nil
  | cons a l ih =>
    obtain ⟨hhead, htail⟩ := List.pairwise_cons.mp hl
    rw [List.filterMap_cons]
    cases hfa : f a with
    | none => exact ih htail
    | some x =>
      rw [List.pairwise_cons]
      refine ⟨?_, ih htail⟩
      intro y hy
      obtain ⟨b, hb, hfb⟩ := List.mem_filterMap.mp hy
      exact hf a b x y hfa hfb (hhead b hb)

theorem heading_src (doc : Document) (h : HeadingInfo) (hm : h ∈ findHeadings doc) :
    ∃ e ∈ doc.content, h.startIndex = st e ∧ h.endIndex = en e := by
  obtain ⟨e, he, hfe⟩ := List.mem_filterMap.mp hm
  refine ⟨e, he, ?_⟩
  cases hb : e.block with
  | paragraph p =>
    rw [hb] at hfe
    simp only at hfe
    split at hfe
    · cases hfe
      exact ⟨rfl, rfl⟩
    · cases hfe
  | table => rw [hb] at hfe; simp at hfe
  | other => rw [hb] at hfe; simp at hfe

theorem headings_bounds (doc : Document) (hwf : WFdoc doc) :
    ∀ h ∈ findHeadings doc, h.startIndex < h.endIndex := by
  intro h hm
  obtain ⟨e, he, hs, hen⟩ := heading_src doc h hm
  rw [hs, hen]
  exact hwf.1 e he

theorem headings_pairwise (doc : Document) (hwf : WFdoc doc) :
    (findHeadings doc).Pairwise (fun a b => a.endIndex ≤ b.startIndex) := by
  have hp := sorted_pairwise doc.content hwf.1 hwf.2
  rw [findHeadings]
  apply pairwise_filterMap (fun a b => en a ≤ st b) _ _ ?_ doc.content hp
  intro a b x y hfa hfb hab
  simp only at hfa hfb
  have hxa : x.endIndex = en a := by
    cases hba : a.block with
    | paragraph p =>
      rw [hba] at hfa
      simp only at hfa
      split at hfa
      · cases hfa; rfl
      · cases hfa
    | table => rw [hba] at hfa; simp at hfa
    | other => rw [hba] at hfa; simp at hfa
  have hyb : y.startIndex = st b := by
    cases hbb : b.block with
    | paragraph p =>
      rw [hbb] at hfb
      simp only at hfb
      split at hfb
      · cases hfb; rfl
      · cases hfb
    | table => rw [hbb] at hfb; simp at hfb
    | other => rw [hbb] at hfb; simp at hfb
  rw [hxa, hyb]
  exact hab

theorem jsOr_pos (o : Option Nat) (h : 0 < jsOr o 0) : jsOr o 1 = jsOr o 0 := by
  cases o with
  | none => simp [jsOr] at h
  | some n =>
    by_cases hn : n = 0
    · simp [jsOr, hn] at h
    · simp [jsOr, hn]

theorem en_le_last : ∀ (l : List StructuralElement) (e lastE : StructuralElement),
    l.Pairwise (fun a b => en a ≤ st b) → (∀ x ∈ l, st x < en x) →
    e ∈ l → l.getLast? = some lastE → en e ≤ en lastE
  | [], _, _, _, _, he, _ => absurd he (List.not_mem_nil _)
  | [a], e, lastE, _, _, he, hl => by
    rw [List.mem_singleton.mp he]
    rw [List.getLast?_singleton] at hl
    cases hl
    exact Nat.le_refl _
  | a :: b :: rest, e, lastE, hp, hlt, he, hl => by
    have hl' : (b :: rest).getLast? = some lastE := by
      rw [List.getLast?_cons_cons] at hl
      exact hl
    obtain ⟨hhead, htail⟩ := List.pairwise_cons.mp hp
    rcases List.mem_cons.mp he with rfl | he'
    · have hlast_mem : lastE ∈ b :: rest := by
        have : lastE ∈ (b :: rest).getLast?.toList := by rw [hl']; simp
        exact List.mem_of_mem_getLast? (by rw [hl']; rfl)
      have h1 : en e ≤ st lastE := hhead lastE hlast_mem
      have h2 : st lastE < en lastE := hlt lastE (by simp [hlast_mem])
      omega
    · exact en_le_last (b :: rest) e lastE htail
        (fun x hx => hlt x (by simp [List.mem_cons.mp hx])) he' hl'

theorem docEnd_eq (doc : Document) (hwf : WFdoc doc) (lastE : StructuralElement)
    (hl : doc.content.getLast? = some lastE) :
    getDocumentEndIndex doc + 1 = en lastE := by
  have hmem : lastE ∈ doc.content := List.mem_of_mem_getLast? (by rw [hl]; rfl)
  have hlt : st lastE < en lastE := hwf.1 lastE hmem
  have h1 : jsOr lastE.endIndex 1 = en lastE :=
    jsOr_pos lastE.endIndex (by rw [en] at hlt; omega)
  have h2 : getDocumentEndIndex doc = jsOr lastE.endIndex 1 - 1 := by
    rw [getDocumentEndIndex, hl]
  rw [h2, h1]
  omega

theorem headings_le_docEnd (doc : Document) (hwf : WFdoc doc) :
    ∀ h ∈ findHeadings doc, h.endIndex ≤ getDocumentEndIndex doc + 1 := by
  intro h hm
  obtain ⟨e, he, _, hen⟩ := heading_src doc h hm
  have hne : doc.content ≠ [] := by
    intro hc
    rw [hc] at he
    exact List.not_mem_nil e he
  obtain ⟨lastE, hl⟩ := Option.isSome_iff_exists.mp
    (by rwa [List.getLast?_isSome])
  have hlast := en_le_last doc.content e lastE
    (sorted_pairwise doc.content hwf.1 hwf.2) hwf.1 he hl
  rw [hen, docEnd_eq doc hwf lastE hl]
  exact hlast

/-! Computation of sectionEndCore over a split heading list. -/

theorem jsFindIndex_first {α} (p : α → Bool) (l₁ l₂ : List α) (a : α)
    (h1 : ∀ x ∈ l₁, p x = false) (h2 : p a = true) :
    jsFindIndex p (l₁ ++ a :: l₂) = some l₁.length := by
  induction l₁ with
  | nil => simp [jsFindIndex, h2]
  | cons x xs ih =>
    have hx := h1 x (by simp)
    rw [List.cons_append, jsFindIndex, if_neg (by simp [hx])]
    rw [ih (fun y hy => h1 y (by simp [hy]))]
    rfl

theorem find?_append {α} (p : α → Bool) (u v : List α) :
    List.find? p (u ++ v) = (List.find? p u).or (List.find? p v) := by
  induction u with
  | nil => simp
  | cons x xs ih =>
    by_cases hx : p x = true
    · simp [List.find?_cons, hx]
    · have hx' : p x = false := by simpa using hx
      simp [List.find?_cons, hx', ih]

theorem sectionEndCore_eq (hs : List HeadingInfo) (d : Nat) (h : HeadingInfo)
    (l₁ l₂ : List HeadingInfo) (hsplit : hs = l₁ ++ h :: l₂)
    (hdist : ∀ x ∈ l₁, x.startIndex ≠ h.startIndex) :
    sectionEndCore hs d h
      = match l₂.find? (fun x => decide (x.level ≤ h.level)) with
        | some x => x.startIndex
        | none => d := by
  have hidx : jsFindIndex (fun x => x.startIndex == h.startIndex) hs = some l₁.length := by
    rw [hsplit]
    exact jsFindIndex_first _ _ _ _
      (fun x hx => beq_eq_false_iff_ne.mpr (hdist x hx)) (beq_self_eq_true _)
  have hdrop : hs.drop (l₁.length + 1) = l₂ := by
    rw [hsplit]
    have : l₁ ++ h :: l₂ = (l₁ ++ [h]) ++ l₂ := by simp
    rw [this]
    have hlen : (l₁ ++ [h]).length = l₁.length + 1 := by simp
    rw [← hlen, List.drop_left]
  rw [sectionEndCore, hidx]
  simp only
  rw [hdrop]

/-! The two parts of the amended section invariant. -/

theorem sectionEnd_ge (doc : Document) (hwf : WFdoc doc) :
    ∀ h ∈ findHeadings doc, h.endIndex - 1 ≤ findSectionEnd doc h := by
  intro h hm
  obtain ⟨l₁, l₂, hsplit⟩ := List.append_of_mem hm
  have hpw := headings_pairwise doc hwf
  have hbounds := headings_bounds doc hwf
  have hdist : ∀ x ∈ l₁, x.startIndex ≠ h.startIndex := by
    intro x hx
    have hxmem : x ∈ findHeadings doc := by rw [hsplit]; simp [hx]
    have hR : x.endIndex ≤ h.startIndex := by
      rw [hsplit] at hpw
      have := (List.pairwise_append.mp hpw).2.2
      exact this x hx h (by simp)
    have hxb := hbounds x hxmem
    omega
  cases hf : l₂.find? (fun x => decide (x.level ≤ h.level)) with
  | some x =>
    have hval : findSectionEnd doc h = x.startIndex := by
      rw [findSectionEnd, sectionEndCore_eq _ _ _ l₁ l₂ hsplit hdist, hf]
    have hxl₂ : x ∈ l₂ := List.mem_of_find?_eq_some hf
    have hhx : h.endIndex ≤ x.startIndex := by
      rw [hsplit] at hpw
      have h1 := (List.pairwise_append.mp hpw).2.1
      exact (List.pairwise_cons.mp h1).1 x hxl₂
    omega
  | none =>
    have hval : findSectionEnd doc h = getDocumentEndIndex doc := by
      rw [findSectionEnd, sectionEndCore_eq _ _ _ l₁ l₂ hsplit hdist, hf]
    have := headings_le_docEnd doc hwf h hm
    omega

theorem sectionEnd_nest (doc : Document) (hwf : WFdoc doc)
    (l₁ l₂a l₂b : List HeadingInfo) (h1 h2 : HeadingInfo)
    (hsplit : findHeadings doc = l₁ ++ h1 :: (l₂a ++ h2 :: l₂b))
    (hlev : h1.level < h2.level)
    (hcontain : h2.startIndex < findSectionEnd doc h1) :
    findSectionEnd doc h2 ≤ findSectionEnd doc h1 := by
  have hpw := headings_pairwise doc hwf
  have hbounds := headings_bounds doc hwf
  have hmem : ∀ x, x ∈ findHeadings doc ↔ x ∈ l₁ ++ h1 :: (l₂a ++ h2 :: l₂b) := by
    intro x
    rw [hsplit]
  -- pairwise on the tail after h1
  have hpw1 : (l₂a ++ h2 :: l₂b).Pairwise (fun a b => a.endIndex ≤ b.startIndex) := by
    rw [hsplit] at hpw
    exact (List.pairwise_cons.mp (List.pairwise_append.mp hpw).2.1).2
  -- distinctness before h1
  have hdist1 : ∀ x ∈ l₁, x.startIndex ≠ h1.startIndex := by
    intro x hx
    have hxmem : x ∈ findHeadings doc := by rw [hsplit]; simp [hx]
    have hR : x.endIndex ≤ h1.startIndex := by
      rw [hsplit] at hpw
      exact (List.pairwise_append.mp hpw).2.2 x hx h1 (by simp)
    have hxb := hbounds x hxmem
    omega
  -- distinctness before h2
  have hsplit2 : findHeadings doc = (l₁ ++ h1 :: l₂a) ++ h2 :: l₂b := by
    rw [hsplit]; simp
  have hdist2 : ∀ x ∈ l₁ ++ h1 :: l₂a, x.startIndex ≠ h2.startIndex := by
    intro x hx
    have hxmem : x ∈ findHeadings doc := by
      rw [hsplit2]
      exact List.mem_append.mpr (Or.inl hx)
    have hR : x.endIndex ≤ h2.startIndex := by
      rw [hsplit2] at hpw
      exact (List.pairwise_append.mp hpw).2.2 x hx h2 (by simp)
    have hxb := hbounds x hxmem
    omega
  have hSE1 := sectionEndCore_eq (findHeadings doc) (getDocumentEndIndex doc) h1
    l₁ (l₂a ++ h2 :: l₂b) hsplit hdist1
  have hSE2 := sectionEndCore_eq (findHeadings doc) (getDocumentEndIndex doc) h2
    (l₁ ++ h1 :: l₂a) l₂b hsplit2 hdist2
  have hh2false : (fun x => decide (x.level ≤ h1.level)) h2 = false := by
    simp only [decide_eq_false_iff_not]
    omega
  cases hfa : l₂a.find? (fun x => decide (x.level ≤ h1.level)) with
  | some x =>
    -- x lies before h2 yet bounds h1's section, contradicting containment
    have hv1 : findSectionEnd doc h1 = x.startIndex := by
      rw [findSectionEnd, hSE1, find?_append, hfa]
      rfl
    rw [hv1] at hcontain
    have hxl : x ∈ l₂a := List.mem_of_find?_eq_some hfa
    have hxmem : x ∈ findHeadings doc := by rw [hsplit]; simp [hxl]
    have hxh2 : x.endIndex ≤ h2.startIndex :=
      (List.pairwise_append.mp hpw1).2.2 x hxl h2 (by simp)
    have hxb := hbounds x hxmem
    omega
  | none =>
    cases hfb : l₂b.find? (fun x => decide (x.level ≤ h1.level)) with
    | some y =>
      have hv1 : findSectionEnd doc h1 = y.startIndex := by
        rw [findSectionEnd, hSE1, find?_append, hfa,
          List.find?_cons_of_neg _ (by simpa using hh2false), hfb]
        rfl
      have hyl : y ∈ l₂b := List.mem_of_find?_eq_some hfb
      have hyP1 : y.level ≤ h1.level := by
        have := List.find?_some hfb
        simpa using this
      have hyP2 : (fun x => decide (x.level ≤ h2.level)) y = true := by
        simp only [decide_eq_true_eq]
        omega
      have hsome : (l₂b.find? (fun x => decide (x.level ≤ h2.level))).isSome := by
        rw [List.find?_isSome]
        exact ⟨y, hyl, hyP2⟩
      obtain ⟨z, hfz⟩ := Option.isSome_iff_exists.mp hsome
      have hv2 : findSectionEnd doc h2 = z.startIndex := by
        rw [findSectionEnd, hSE2, hfz]
      -- z is found no later than y, hence its start is not past y's start
      obtain ⟨hzP, m₁, m₂, hbsplit, hm₁⟩ := find?_split _ _ _ hfz
      have hzle : z.startIndex ≤ y.startIndex := by
        rw [hbsplit] at hyl
        rcases List.mem_append.mp hyl with hym | hyc
        · exact absurd hyP2 (by simp [hm₁ y hym])
        · rcases List.mem_cons.mp hyc with rfl | hym2
          · exact Nat.le_refl _
          · have hpwb : (m₁ ++ z :: m₂).Pairwise (fun a b => a.endIndex ≤ b.startIndex) := by
              rw [← hbsplit]
              rw [hsplit] at hpw
              have t1 := (List.pairwise_cons.mp (List.pairwise_append.mp hpw).2.1).2
              exact (List.pairwise_cons.mp (List.pairwise_append.mp t1).2.1).2
            have hzy : z.endIndex ≤ y.startIndex :=
              (List.pairwise_cons.mp (List.pairwise_append.mp hpwb).2.1).1 y hym2
            have hzl2b : z ∈ l₂b := by rw [hbsplit]; simp
            have hzmem : z ∈ findHeadings doc := by rw [hsplit]; simp [hzl2b]
            have hzb := hbounds z hzmem
            omega
      rw [hv1, hv2]
      omega
    | none =>
      have hv1 : findSectionEnd doc h1 = getDocumentEndIndex doc := by
        rw [findSectionEnd, hSE1, find?_append, hfa,
          List.find?_cons_of_neg _ (by simpa using hh2false), hfb]
        rfl
      cases hfz2 : l₂b.find? (fun x => decide (x.level ≤ h2.level)) with
      | some z =>
        have hv2 : findSectionEnd doc h2 = z.startIndex := by
          rw [findSectionEnd, hSE2, hfz2]
        have hzl : z ∈ l₂b := List.mem_of_find?_eq_some hfz2
        have hzmem : z ∈ findHeadings doc := by rw [hsplit]; simp [hzl]
        have hzb := hbounds z hzmem
        have hzd := headings_le_docEnd doc hwf z hzmem
        rw [hv1, hv2]
        omega
      | none =>
        have hv2 : findSectionEnd doc h2 = getDocumentEndIndex doc := by
          rw [findSectionEnd, hSE2, hfz2]
        rw [hv1, hv2]

/-! C6: the section range invariant. -/

/-- C6, counterexample: both conjuncts of the claim fail on well formed
documents. When the heading is the last content element, findSectionEnd
returns the document end, which is the heading's own endIndex minus one; and
two headings h1 before h2 with h2.level greater than h1.level need not nest
when h2 lies outside h1's section. -/
theorem c6_counterexample :
    (WFdoc exDocLastHeading ∧
      findHeadings exDocLastHeading
        = [{ text := str "Title", level := 1, startIndex := 1, endIndex := 7 }] ∧
      findSectionEnd exDocLastHeading
          { text := str "Title", level := 1, startIndex := 1, endIndex := 7 } = 6 ∧
      ¬ (7 : Nat) ≤ 6) ∧
    (WFdoc exDocNonNested ∧
      findHeadings exDocNonNested
        = [ { text := str "A", level := 1, startIndex := 1, endIndex := 3 }
          , { text := str "B", level := 1, startIndex := 3, endIndex := 5 }
          , { text := str "C", level := 2, startIndex := 5, endIndex := 7 } ] ∧
      findSectionEnd exDocNonNested
          { text := str "A", level := 1, startIndex := 1, endIndex := 3 } = 3 ∧
      findSectionEnd exDocNonNested
          { text := str "C", level := 2, startIndex := 5, endIndex := 7 } = 6 ∧
      ¬ (6 : Nat) ≤ 3) := by
  constructor
  · exact ⟨by constructor <;> decide, by decide, by decide, by decide⟩
  · exact ⟨by constructor <;> decide, by decide, by decide, by decide, by decide⟩

/-- C6, amended: on well formed documents, findSectionEnd is at least the
heading's endIndex minus one (the shortfall of one arises exactly when the
heading is the last element, since the document end excludes the final
newline); and sections nest: if h2 follows h1 with a strictly larger level
and h2 starts inside h1's section, then h2's section end does not exceed
h1's. -/
theorem c6_amended (doc : Document) (hwf : WFdoc doc) :
    (∀ h ∈ findHeadings doc, h.endIndex - 1 ≤ findSectionEnd doc h) ∧
    (∀ l₁ l₂a l₂b h1 h2,
      findHeadings doc = l₁ ++ h1 :: (l₂a ++ h2 :: l₂b) →
      h1.level < h2.level →
      h2.startIndex < findSectionEnd doc h1 →
      findSectionEnd doc h2 ≤ findSectionEnd doc h1) :=
  ⟨sectionEnd_ge doc hwf,
   fun l₁ l₂a l₂b h1 h2 hsplit hlev hcontain =>
     sectionEnd_nest doc hwf l₁ l₂a l₂b h1 h2 hsplit hlev hcontain⟩

/-! Round trip lemmas: Reader output fed back through the Writer. -/

theorem stripNl_no_nl (s : List Char) (h : '\n' ∉ s) : stripNl s = s := by
  rw [stripNl]
  split
  · exact absurd (List.mem_of_mem_getLast? (by assumption)) h
  · rfl

theorem isPfx_self_append : ∀ (u v : List Char), isPfx u (u ++ v) = true
  | [], _ => rfl
  | a :: as, v => by
    rw [List.cons_append, isPfx]
    simp [isPfx_self_append as v]

theorem detectMarker_h1 (s : List Char) :
    detectMarker (str "[H1] " ++ s) = (1, false, s) := by
  rw [detectMarker, if_pos (isPfx_self_append (str "[H1] ") s)]
  rw [show (5 : Nat) = (str "[H1] ").length from rfl, List.drop_left]

theorem detectMarker_h2 (s : List Char) :
    detectMarker (str "[H2] " ++ s) = (2, false, s) := by
  rw [detectMarker]
  rw [if_neg (by simp [str, isPfx]), if_pos (isPfx_self_append (str "[H2] ") s)]
  rw [show (5 : Nat) = (str "[H2] ").length from rfl, List.drop_left]

theorem detectMarker_h3 (s : List Char) :
    detectMarker (str "[H3] " ++ s) = (3, false, s) := by
  rw [detectMarker]
  rw [if_neg (by simp [str, isPfx]), if_neg (by simp [str, isPfx]),
    if_pos (isPfx_self_append (str "[H3] ") s)]
  rw [show (5 : Nat) = (str "[H3] ").length from rfl, List.drop_left]

theorem detectMarker_bullet (s : List Char) :
    detectMarker (str "• " ++ s) = (0, true, s) := by
  rw [detectMarker]
  rw [if_neg (by simp [str, isPfx]), if_neg (by simp [str, isPfx]),
    if_neg (by simp [str, isPfx]), if_pos (isPfx_self_append (str "• ") s)]
  rw [show (2 : Nat) = (str "• ").length from rfl, List.drop_left]

theorem detectMarker_no_marker (s : List Char) (h : startsWithMarker s = false) :
    detectMarker s = (0, false, s) := by
  have h5 : isPfx (str "[H1] ") s = false ∧ isPfx (str "[H2] ") s = false ∧
      isPfx (str "[H3] ") s = false ∧ isPfx (str "• ") s = false ∧
      isPfx (str "* ") s = false := by
    rw [startsWithMarker] at h
    simp only [Bool.or_eq_false_iff] at h
    exact ⟨h.1.1.1.1, h.1.1.1.2, h.1.1.2, h.1.2, h.2⟩
  rw [detectMarker, if_neg (by simp [h5.1]), if_neg (by simp [h5.2.1]),
    if_neg (by simp [h5.2.2.1]), if_neg (by simp [h5.2.2.2.1]),
    if_neg (by simp [h5.2.2.2.2])]

theorem processLineF_no_link : ∀ (fuel : Nat) (s : List Char) (pos : Nat),
    s.length ≤ fuel → containsLinkPattern s = false →
    processLineF fuel s pos = (s, [])
  | 0, s, pos, hle, _ => by
    have : s = [] := List.length_eq_zero.mp (by omega)
    subst this
    rfl
  | fuel + 1, [], pos, _, _ => rfl
  | fuel + 1, c :: rest, pos, hle, hcl => by
    have hparts : (matchLinkAt (c :: rest)).isSome = false ∧
        containsLinkPattern rest = false := by
      rw [containsLinkPattern] at hcl
      simpa using hcl
    have hnone : matchLinkAt (c :: rest) = none :=
      Option.not_isSome_iff_eq_none.mp (by simp [hparts.1])
    rw [processLineF, hnone]
    rw [processLineF_no_link fuel rest (pos + 1) (by simpa using hle) hparts.2]

theorem processLine_no_link (s : List Char) (pos : Nat)
    (h : containsLinkPattern s = false) : processLine s pos = (s, []) :=
  processLineF_no_link s.length s pos (Nat.le_refl _) h

theorem splitOnNl_joinNl : ∀ (lines : List (List Char)), lines ≠ [] →
    (∀ l ∈ lines, '\n' ∉ l) → splitOnNl (joinNl lines) = lines
  | [], h, _ => absurd rfl h
  | [l], _, hnl => by
    rw [joinNl, splitOnNl_no_nl l (hnl l (by simp))]
  | l :: l2 :: ls, _, hnl => by
    rw [joinNl, splitOnNl_append l _ (hnl l (by simp))]
    rw [splitOnNl_joinNl (l2 :: ls) (by simp) (fun x hx => hnl x (by simp [hx]))]

theorem joinNl_cons (a : List Char) (l : List (List Char)) :
    joinNl (a :: l) = a ++ (if l = [] then [] else '\n' :: joinNl l) := by
  cases l with
  | nil => simp [joinNl]
  | cons b m => simp [joinNl]

theorem parseLines_plain : ∀ (lines : List (List Char)) (idx : Nat),
    (∀ l ∈ lines, containsLinkPattern ((detectMarker l).2.2) = false) →
    (parseLines lines idx).plainText
      = joinNl (lines.map (fun l => (detectMarker l).2.2))
  | [], _, _ => rfl
  | line :: rest, idx, hcl => by
    have hthis := processLine_no_link ((detectMarker line).2.2) idx
      (hcl line (by simp))
    rw [List.map_cons, joinNl_cons]
    by_cases hr : rest = []
    · subst hr
      simp [parseLines, hthis]
    · rw [if_neg (by simpa using hr)]
      have hih := parseLines_plain rest
        (idx + ((detectMarker line).2.2 ++ ['\n']).length)
        (fun l hl => hcl l (by simp [hl]))
      simp only [parseLines, hthis, if_neg hr]
      rw [hih]
      simp

theorem renderRun_plain (tr : TextRun) (h : linkActive tr = false) :
    renderRun tr = tr.content.getD [] := by
  cases hu : tr.linkUrl with
  | none => simp only [renderRun, hu]
  | some url =>
    rw [linkActive, hu] at h
    have h' : (!url.isEmpty && !(trimStr (tr.content.getD [])).isEmpty) = false := h
    simp only [Bool.and_eq_false_iff, Bool.not_eq_false', List.isEmpty_iff] at h'
    simp only [renderRun, hu]
    rw [if_neg]
    intro ⟨h1, h2⟩
    rcases h' with hc | hc
    · exact h1 hc
    · exact h2 hc

theorem filterMap_congr' {α β} (f g : α → Option β) :
    ∀ l : List α, (∀ a ∈ l, f a = g a) → l.filterMap f = l.filterMap g
  | [], _ => rfl
  | a :: l, h => by
    rw [List.filterMap_cons, List.filterMap_cons, h a (by simp),
      filterMap_congr' f g l (fun x hx => h x (by simp [hx]))]

theorem paragraphRendered_plain (p : Paragraph)
    (h : ∀ el ∈ p.elements, ∀ tr, el.textRun = some tr → linkActive tr = false) :
    paragraphRendered p = paragraphText p := by
  rw [paragraphRendered, paragraphText]
  congr 1
  apply filterMap_congr'
  intro el hel
  cases hrt : el.textRun with
  | none => rfl
  | some tr =>
    simp only [Option.map_some']
    rw [renderRun_plain tr (h el hel tr hrt)]

theorem pfx_no_nl (b : Bool) (ns : Option NamedStyleType) :
    '\n' ∉ (if b then str "• " else stylePfx ns) := by
  cases b with
  | true =>
    show '\n' ∉ str "• "
    decide
  | false =>
    show '\n' ∉ stylePfx ns
    match ns with
    | none => decide
    | some NamedStyleType.HEADING_1 => decide
    | some NamedStyleType.HEADING_2 => decide
    | some NamedStyleType.HEADING_3 => decide
    | some NamedStyleType.NORMAL_TEXT => decide
    | some NamedStyleType.OTHER_STYLE => decide

theorem detectMarker_pfx (b : Bool) (ns : Option NamedStyleType) (s : List Char)
    (hmark : startsWithMarker s = false) :
    ((detectMarker ((if b then str "• " else stylePfx ns) ++ s)).2.2) = s := by
  cases b with
  | true =>
    show (detectMarker (str "• " ++ s)).2.2 = s
    rw [detectMarker_bullet]
  | false =>
    show (detectMarker (stylePfx ns ++ s)).2.2 = s
    match ns with
    | none => rw [show stylePfx none = [] from rfl, List.nil_append,
        detectMarker_no_marker s hmark]
    | some NamedStyleType.HEADING_1 => rw [show stylePfx (some NamedStyleType.HEADING_1)
        = str "[H1] " from rfl, detectMarker_h1]
    | some NamedStyleType.HEADING_2 => rw [show stylePfx (some NamedStyleType.HEADING_2)
        = str "[H2] " from rfl, detectMarker_h2]
    | some NamedStyleType.HEADING_3 => rw [show stylePfx (some NamedStyleType.HEADING_3)
        = str "[H3] " from rfl, detectMarker_h3]
    | some NamedStyleType.NORMAL_TEXT => rw [show stylePfx (some NamedStyleType.NORMAL_TEXT)
        = [] from rfl, List.nil_append, detectMarker_no_marker s hmark]
    | some NamedStyleType.OTHER_STYLE => rw [show stylePfx (some NamedStyleType.OTHER_STYLE)
        = [] from rfl, List.nil_append, detectMarker_no_marker s hmark]

theorem elementOk_paragraph (e : StructuralElement) (p : Paragraph)
    (hb : e.block = BlockContent.paragraph p) (h : elementOk e = true) :
    (trimStr (paragraphText p) ≠ [] ∨ paragraphText p = ['\n']) ∧
    '\n' ∉ stripNl (paragraphText p) ∧
    startsWithMarker (stripNl (paragraphText p)) = false ∧
    containsLinkPattern (stripNl (paragraphText p)) = false ∧
    (∀ el ∈ p.elements, ∀ tr, el.textRun = some tr → linkActive tr = false) := by
  rw [elementOk, hb] at h
  have h' : ((!(trimStr (paragraphText p)).isEmpty || paragraphText p == ['\n']) &&
      !(decide ('\n' ∈ stripNl (paragraphText p))) &&
      !startsWithMarker (stripNl (paragraphText p)) &&
      !containsLinkPattern (stripNl (paragraphText p)) &&
      p.elements.all (fun el =>
        match el.textRun with
        | some tr => !linkActive tr
        | none => true)) = true := h
  simp only [Bool.and_eq_true, Bool.or_eq_true, Bool.not_eq_true',
    List.isEmpty_iff, beq_iff_eq, decide_eq_false_iff_not,
    List.all_eq_true] at h'
  obtain ⟨⟨⟨⟨h1, h2⟩, h3⟩, h4⟩, h5⟩ := h'
  refine ⟨?_, h2, h3, h4, ?_⟩
  · rcases h1 with h1 | h1
    · left
      simpa [List.isEmpty_iff] using h1
    · right
      exact h1
  · intro el hel tr hrt
    have := h5 el hel
    rw [hrt] at this
    simpa using this

theorem elementOk_not_table (e : StructuralElement)
    (hb : e.block = BlockContent.table) (h : elementOk e = true) : False := by
  rw [elementOk, hb] at h
  exact Bool.noConfusion h

theorem c9_core : ∀ l : List StructuralElement, (∀ e ∈ l, elementOk e = true) →
    (∀ line ∈ l.filterMap renderElement,
        '\n' ∉ line ∧ containsLinkPattern ((detectMarker line).2.2) = false) ∧
    ((l.filterMap renderElement).map (fun line => (detectMarker line).2.2)
      = l.filterMap (fun e => match e.block with
          | BlockContent.paragraph p => some (stripNl (paragraphText p))
          | _ => none))
  | [], _ => ⟨fun line hline => absurd hline (List.not_mem_nil line), rfl⟩
  | e :: rest, hok => by
    obtain ⟨ih1, ih2⟩ := c9_core rest (fun x hx => hok x (by simp [hx]))
    cases hb : e.block with
    | other =>
      have hre : renderElement e = none := by rw [renderElement, hb]
      rw [List.filterMap_cons, List.filterMap_cons, hre, hb]
      exact ⟨ih1, ih2⟩
    | table => exact absurd (hok e (by simp)) (fun h => elementOk_not_table e hb h)
    | paragraph p =>
      obtain ⟨h1, h2, h3, h4, h5⟩ := elementOk_paragraph e p hb (hok e (by simp))
      have hrend : paragraphRendered p = paragraphText p :=
        paragraphRendered_plain p h5
      by_cases htr : trimStr (paragraphText p) = []
      · have ht : paragraphText p = ['\n'] := by
          rcases h1 with h1 | h1
          · exact absurd htr h1
          · exact h1
        have hre : renderElement e = some [] := by
          rw [renderElement, hb]
          simp only [hrend, ht]
          rw [if_neg (by decide)]
          simp
        rw [List.filterMap_cons, List.filterMap_cons, hre, hb]
        constructor
        · intro line hline
          rcases List.mem_cons.mp hline with rfl | hline'
          · refine ⟨by simp, ?_⟩
            rw [detectMarker_nil]
            rfl
          · exact ih1 line hline'
        · show List.map (fun line => (detectMarker line).2.2)
              ([] :: List.filterMap renderElement rest)
            = stripNl (paragraphText p) :: List.filterMap (fun e =>
                match e.block with
                | BlockContent.paragraph p => some (stripNl (paragraphText p))
                | _ => none) rest
          rw [List.map_cons, detectMarker_nil, ih2, ht]
          rfl
      · have hre : renderElement e
            = some ((if p.bullet then str "• " else stylePfx p.namedStyleType)
                ++ stripNl (paragraphText p)) := by
          rw [renderElement, hb]
          simp only [hrend]
          rw [if_pos htr]
        rw [List.filterMap_cons, List.filterMap_cons, hre, hb]
        have hcore := detectMarker_pfx p.bullet p.namedStyleType
          (stripNl (paragraphText p)) h3
        constructor
        · intro line hline
          rcases List.mem_cons.mp hline with rfl | hline'
          · refine ⟨?_, ?_⟩
            · intro hmem
              rcases List.mem_append.mp hmem with hm | hm
              · exact pfx_no_nl p.bullet p.namedStyleType hm
              · exact h2 hm
            · rw [hcore]
              exact h4
          · exact ih1 line hline'
        · simp only [List.map_cons, hcore]
          rw [ih2]

/-! C9: round trip of the Reader output through the Writer. -/

/-- C9, counterexample: a document whose single paragraph text is three
spaces and a newline contains no reserved marker form, yet documentToText
drops the paragraph entirely and the round trip yields empty plain text,
not the original paragraph text. -/
theorem c9_counterexample :
    (parseContentForInsertion (documentToText exDocBlankish) 1).plainText = [] ∧
    docParagraphLines exDocBlankish = [str "   "] ∧
    ([] : List Char) ≠ joinNl (docParagraphLines exDocBlankish) ∧
    startsWithMarker (str "   ") = false ∧
    containsLinkPattern (str "   ") = false := by
  decide

/-- C9, amended: for documents whose paragraphs each either have visible text
or are a single bare newline, carry no interior newline, no leading reserved
marker, no inline link pattern, no active link runs, and which hold no
tables, feeding documentToText back through parseContentForInsertion
reproduces exactly the document's plain paragraph text, one line per
paragraph. -/
theorem c9_amended (doc : Document) (idx : Nat)
    (hok : ∀ e ∈ doc.content, elementOk e = true) :
    (parseContentForInsertion (documentToText doc) idx).plainText
      = joinNl (docParagraphLines doc) := by
  obtain ⟨hlines, hmap⟩ := c9_core doc.content hok
  have hdoc : docParagraphLines doc
      = (doc.content.filterMap renderElement).map (fun line => (detectMarker line).2.2) := by
    rw [docParagraphLines, hmap]
  rw [hdoc, parseContentForInsertion, documentToText]
  cases hL : doc.content.filterMap renderElement with
  | nil =>
    rw [joinNl, show splitOnNl [] = [[]] from rfl, parseLines_single_nil]
    rfl
  | cons l0 ls =>
    rw [← hL]
    rw [splitOnNl_joinNl (doc.content.filterMap renderElement)
      (by rw [hL]; simp) (fun l hl => (hlines l hl).1)]
    rw [parseLines_plain (doc.content.filterMap renderElement) idx
      (fun l hl => (hlines l hl).2)]

/-- C9, witness: the document with a heading, a bullet item, a blank line
and a plain paragraph round trips to exactly its plain paragraph text. -/
theorem c9_witness :
    (parseContentForInsertion (documentToText exDocRoundTrip) 1).plainText
      = joinNl (docParagraphLines exDocRoundTrip) :=
  c9_amended exDocRoundTrip 1 (by decide)

/-- C6, witness: on the document with headings A, B, C of levels 1, 2, 1,
heading A's section end 9 is at least its endIndex minus one, and B's section
nests inside A's section. -/
theorem c6_witness :
    (2 : Nat) ≤ findSectionEnd exDocNesting
        { text := str "A", level := 1, startIndex := 1, endIndex := 3 } ∧
    findSectionEnd exDocNesting
        { text := str "B", level := 2, startIndex := 5, endIndex := 7 }
      ≤ findSectionEnd exDocNesting
        { text := str "A", level := 1, startIndex := 1, endIndex := 3 } :=
  ⟨(c6_amended exDocNesting ⟨by decide, by decide⟩).1
      { text := str "A", level := 1, startIndex := 1, endIndex := 3 } (by decide),
   (c6_amended exDocNesting ⟨by decide, by decide⟩).2
      [] []
      [{ text := str "C", level := 1, startIndex := 9, endIndex := 11 }]
      { text := str "A", level := 1, startIndex := 1, endIndex := 3 }
      { text := str "B", level := 2, startIndex := 5, endIndex := 7 }
      (by decide) (by decide) (by decide)⟩

end McpGdocs
